import Mathlib

/-!
Verification of the package-manager repository's core behaviours.

The backend (`backend/index.js`) is embedded shallowly: strings are
`List Char`, JavaScript `String.prototype.split` becomes the explicit
splitters below, objects with optionally-assigned properties become
structures of `Option` fields, and the MySQL tables touched by the
update endpoint become lists inside a `Db` state threaded through an
explicit query list with transaction semantics.

Components of the repository that live in the CLI tool (not present
under the sources): the version comparator, the TTL-gated catalog
cache and the resolver, are modelled from the specification text and
marked as such in their doc comments.
-/

/-! ## List-of-characters utilities mirroring JavaScript string operations -/

/-- JavaScript `s.split(c)` for a single-character separator. -/
def splitOnCh (c : Char) : List Char → List (List Char)
  | [] => [[]]
  | x :: xs =>
    if x = c then [] :: splitOnCh c xs
    else
      match splitOnCh c xs with
      | [] => [[x]]
      | chunk :: chunks => (x :: chunk) :: chunks

/-- JavaScript `s.split(sep)` for a two-character separator, scanning
left to right over non-overlapping occurrences. -/
def splitOn2 (c1 c2 : Char) : List Char → List (List Char)
  | [] => [[]]
  | [x] => [[x]]
  | x :: y :: rest =>
    if x = c1 ∧ y = c2 then [] :: splitOn2 c1 c2 rest
    else
      match splitOn2 c1 c2 (y :: rest) with
      | [] => [[x]]
      | chunk :: chunks => (x :: chunk) :: chunks

/-- Remove trailing whitespace characters. -/
def dropTrailingWs : List Char → List Char
  | [] => []
  | c :: cs =>
    match dropTrailingWs cs with
    | [] => if c.isWhitespace then [] else [c]
    | r => c :: r

/-- JavaScript `s.trim()`: strip leading and trailing whitespace. -/
def trimL (l : List Char) : List Char :=
  dropTrailingWs (l.dropWhile Char.isWhitespace)

/-- Three-way comparison on naturals, written out so that every lemma
about it is elementary. -/
def wcmp (m n : Nat) : Ordering :=
  if m < n then .lt else if n < m then .gt else .eq

/-! ## Embedding of parsePackagesFile (backend/index.js) -/

/-- One element of the `packages` array built by `parsePackagesFile`:
a JavaScript object whose properties are assigned only when the
corresponding stanza line is seen, hence `Option` fields. -/
structure PackageRecord where
  name : Option (List Char)
  version : Option (List Char)
  architecture : Option (List Char)
  filename : Option (List Char)
deriving Repr, DecidableEq

/-- One element of the `dependencies` array built by
`parsePackagesFile`.  `package_name` is the value of `pkg.name` at the
moment the `Depends` line is processed, which may still be unassigned. -/
structure RawDep where
  package_name : Option (List Char)
  depends_on : List Char
  version_constraint : Option (List Char)
deriving Repr, DecidableEq

/-- The character class of the regex fragment `[^\s(]`. -/
def depNameChar (c : Char) : Bool :=
  !c.isWhitespace && c != '('

/-- Behaviour of `dep.match(/^([^\s(]+)(?:\s*\(([^)]+)\))?/)` in
`parsePackagesFile`: `none` when the regex fails to match, otherwise
the captured name and optional parenthesised constraint. -/
def parseDep (dep : List Char) : Option (List Char × Option (List Char)) :=
  let name := dep.takeWhile depNameChar
  if name = [] then none
  else
    let rest := (dep.drop name.length).dropWhile Char.isWhitespace
    if rest.head? = some '(' then
      let inner := rest.tail
      let inside := inner.takeWhile (· != ')')
      if inside ≠ [] ∧ inner.drop inside.length ≠ [] then some (name, some inside)
      else some (name, none)
    else some (name, none)

/-- The `Depends` branch of `parsePackagesFile`: split the raw value on
commas, trim each group, and push one entry per group the regex
matches. -/
def parseDependsJs (value : List Char) : List (List Char × Option (List Char)) :=
  ((splitOnCh ',' value).map trimL).foldl
    (fun acc dep =>
      match parseDep dep with
      | some r => acc ++ [r]
      | none => acc) []

/-- Processing of a single stanza line inside `parsePackagesFile`:
split on the first occurrences of a colon-space, dispatch on the key,
and return the updated object together with the dependency entries
pushed by a `Depends` line. -/
def processLine (pkg : PackageRecord) (line : List Char) : PackageRecord × List RawDep :=
  let parts := splitOn2 ':' ' ' line
  let key := parts.headD []
  if key = [] then (pkg, [])
  else
    let value := List.intercalate [':', ' '] parts.tail
    if key = "Package".toList then ({ pkg with name := some value }, [])
    else if key = "Version".toList then ({ pkg with version := some value }, [])
    else if key = "Architecture".toList then ({ pkg with architecture := some value }, [])
    else if key = "Filename".toList then ({ pkg with filename := some value }, [])
    else if key = "Depends".toList then
      (pkg, (parseDependsJs value).map fun r => ⟨pkg.name, r.1, r.2⟩)
    else (pkg, [])

/-- JavaScript truthiness of an optional string property:
`undefined` and the empty string are falsy. -/
def truthyStr : Option (List Char) → Bool
  | none => false
  | some v => !v.isEmpty

/-- Fold of `processLine` over the lines of one stanza, threading the
object under construction and accumulating pushed dependencies. -/
def entryFold (entry : List Char) : PackageRecord × List RawDep :=
  (splitOnCh '\n' entry).foldl
    (fun st line => ((processLine st.1 line).1, st.2 ++ (processLine st.1 line).2))
    (⟨none, none, none, none⟩, [])

/-- Full `parsePackagesFile`: split the text into blank-line-delimited
stanzas, process each, and keep a package record exactly when its
`Package` property is truthy.  Dependencies accumulate across all
stanzas. -/
def parsePackagesFile (content : List Char) : List PackageRecord × List RawDep :=
  (splitOn2 '\n' '\n' content).foldl
    (fun acc entry =>
      (acc.1 ++ (if truthyStr (entryFold entry).1.name then [(entryFold entry).1] else []),
       acc.2 ++ (entryFold entry).2))
    ([], [])

/-! ## Embedding of the database state and the update-packages endpoint -/

/-- A row of the `packages` table.  `id` is assigned from the table's
AUTO_INCREMENT counter; the remaining columns are nullable. -/
structure PkgRow where
  rid : Nat
  rname : Option (List Char)
  rversion : Option (List Char)
  rarchitecture : Option (List Char)
  rfilename : Option (List Char)
deriving Repr, DecidableEq

/-- A row of the `dependencies` table. -/
structure DepRow where
  package_id : Nat
  dependency_name : List Char
  version_constraint : Option (List Char)
deriving Repr, DecidableEq

/-- The slice of MySQL state the endpoint touches: the two tables and
the AUTO_INCREMENT counter of `packages` (DELETE does not reset it). -/
structure Db where
  packages : List PkgRow
  dependencies : List DepRow
  nextId : Nat
deriving Repr, DecidableEq

/-- The SQL statements issued between BEGIN and COMMIT by the
update-packages endpoint. -/
inductive Query where
  | clearDependencies : Query
  | clearPackages : Query
  | insertPackage (p : PackageRecord) : Query
  | insertDependency (pid : Nat) (dname : List Char) (dcons : Option (List Char)) : Query
deriving Repr, DecidableEq

/-- Effect of one statement on the working (in-transaction) state. -/
def applyQuery (w : Db) : Query → Db
  | .clearDependencies => { w with dependencies := [] }
  | .clearPackages => { w with packages := [] }
  | .insertPackage p =>
    { w with
      packages := w.packages ++ [⟨w.nextId, p.name, p.version, p.architecture, p.filename⟩]
      nextId := w.nextId + 1 }
  | .insertDependency pid dname dcons =>
    { w with dependencies := w.dependencies ++ [⟨pid, dname, dcons⟩] }

/-- JavaScript property-key coercion: an object indexed with
`undefined` uses the string key "undefined". -/
def keyOfOwner : Option (List Char) → List Char
  | none => "undefined".toList
  | some s => s

/-- Store into `packageIdMap`; the newest binding shadows older ones,
so lookups see the last write. -/
def mapSet (m : List (List Char × Nat)) (k : List Char) (v : Nat) : List (List Char × Nat) :=
  (k, v) :: m

/-- Read from `packageIdMap`. -/
def mapGet (m : List (List Char × Nat)) (k : List Char) : Option Nat :=
  (m.find? fun e => e.1 == k).map (·.2)

/-- The `packageIdMap` built by the package-insert loop, given the
AUTO_INCREMENT value at which the loop starts. -/
def buildIdMap (startId : Nat) (pkgs : List PackageRecord) : List (List Char × Nat) :=
  (pkgs.foldl (fun st p => (mapSet st.1 (keyOfOwner p.name) st.2, st.2 + 1)) ([], startId)).1

/-- The full statement list of the transaction: clear both tables,
insert every parsed package, then insert each dependency whose
`packageIdMap` lookup is truthy. -/
def updateQueries (startId : Nat) (pkgs : List PackageRecord) (deps : List RawDep) : List Query :=
  let idMap := buildIdMap startId pkgs
  [Query.clearDependencies, Query.clearPackages]
    ++ pkgs.map Query.insertPackage
    ++ deps.filterMap (fun d =>
        match mapGet idMap (keyOfOwner d.package_name) with
        | some pid => if pid ≠ 0 then some (.insertDependency pid d.depends_on d.version_constraint) else none
        | none => none)

/-- Outcome reported by the endpoint. -/
inductive UpdateResponse where
  | updated : UpdateResponse
  | failed : UpdateResponse
deriving Repr, DecidableEq

/-- The update-packages endpoint after parsing: run the statements in
a transaction.  `failAt = some k` with `k` an index into the statement
list means that statement throws; the catch block rolls the
transaction back (restoring the tables, though not the
AUTO_INCREMENT counter) and the outer handler answers with an error.
Otherwise the transaction commits and the endpoint reports success. -/
def runUpdate (db : Db) (pkgs : List PackageRecord) (deps : List RawDep)
    (failAt : Option Nat) : Db × UpdateResponse :=
  let qs := updateQueries db.nextId pkgs deps
  match failAt with
  | some k =>
    if k < qs.length then
      let w := (qs.take k).foldl applyQuery db
      ({ db with nextId := w.nextId }, .failed)
    else (qs.foldl applyQuery db, .updated)
  | none => (qs.foldl applyQuery db, .updated)

/-! ## Embedding of the log-download endpoint -/

/-- The JSON body destructured by the log-download endpoint; absent
properties are `undefined`, hence `Option` fields. -/
structure LogBody where
  user_id : Option (List Char)
  package_name : Option (List Char)
  version : Option (List Char)
  download_duration_seconds : Option (List Char)
  install_duration_seconds : Option (List Char)
  client_ip : Option (List Char)
  download_status : Option (List Char)
  install_status : Option (List Char)
deriving Repr, DecidableEq

/-- A row of the `packagedownloads` table (the columns the INSERT
statement supplies). -/
structure DlRow where
  user_id : Option (List Char)
  package_name : Option (List Char)
  version : Option (List Char)
  download_duration_seconds : Option (List Char)
  install_duration_seconds : Option (List Char)
  client_ip : Option (List Char)
  download_status : Option (List Char)
  install_status : Option (List Char)
deriving Repr, DecidableEq

/-- The row the endpoint inserts for a given request body. -/
def rowOfBody (b : LogBody) : DlRow :=
  ⟨b.user_id, b.package_name, b.version, b.download_duration_seconds,
   b.install_duration_seconds, b.client_ip, b.download_status, b.install_status⟩

/-- Verdict of the authenticateToken middleware. -/
inductive AuthResult (U : Type) where
  | noToken : AuthResult U
  | badToken : AuthResult U
  | okUser (u : U) : AuthResult U
deriving Repr, DecidableEq

/-- authenticateToken: take the word after the first space of the
Authorization header; a missing or empty token yields 401, a token
the verifier rejects yields 403. -/
def checkAuth {U : Type} (authHeader : Option (List Char))
    (verify : List Char → Option U) : AuthResult U :=
  match authHeader with
  | none => .noToken
  | some h =>
    match (splitOnCh ' ' h).get? 1 with
    | none => .noToken
    | some t =>
      if t = [] then .noToken
      else
        match verify t with
        | none => .badToken
        | some u => .okUser u

/-- Responses of the log-download endpoint. -/
inductive LogResponse where
  | okLogged : LogResponse
  | status401 : LogResponse
  | status403 : LogResponse
deriving Repr, DecidableEq

/-- POST /api/log-download: behind authenticateToken, insert one row
built from the request body and reply with success. -/
def logDownload {U : Type} (authHeader : Option (List Char))
    (verify : List Char → Option U) (body : LogBody)
    (table : List DlRow) : List DlRow × LogResponse :=
  match checkAuth authHeader verify with
  | .noToken => (table, .status401)
  | .badToken => (table, .status403)
  | .okUser _ => (table ++ [rowOfBody body], .okLogged)

/-! ## Index Store cache, modelled from the spec -/

/-- Modelled from the spec: the Index Store's cache TTL of 24 hours
(section 3, Cache Entry), in seconds.  The Index Store itself lives in
the CLI tool, which is not among the sources. -/
def indexTTL : Nat := 24 * 60 * 60

/-- Modelled from the spec: a Cache Entry, a catalog snapshot together
with its fetch timestamp. -/
structure IndexCache where
  snapshot : List PackageRecord
  fetchedAt : Nat
deriving Repr, DecidableEq

/-- Modelled from the spec: getCatalog (section 4.1).  On a valid,
unforced cache hit it returns the cached catalog with no network
fetch; on a miss, expiry or forced refresh it fetches (the would-be
network result is the `fetched` argument), returns it, and replaces
the cache entry.  The third component counts network fetches
performed by the call. -/
def getCatalog (fetched : List PackageRecord) (cache : Option IndexCache)
    (now : Nat) (force : Bool) : List PackageRecord × Option IndexCache × Nat :=
  match cache with
  | some e =>
    if force = false ∧ now - e.fetchedAt < indexTTL then (e.snapshot, some e, 0)
    else (fetched, some ⟨fetched, now⟩, 1)
  | none => (fetched, some ⟨fetched, now⟩, 1)

/-! ## Version comparator, modelled from the spec -/

/-- Modelled from the spec: ordering weight of one character position
in a non-digit run (section 4.3).  A tilde sorts before the end of the
run (`none`), which sorts before every other character; other
characters compare by character code. -/
def charWeight : Option Char → Nat
  | none => 1
  | some c => if c = '~' then 0 else c.toNat + 2

/-- Modelled from the spec: comparison of two non-digit runs,
character by character with `charWeight`.  When one run ends first the
outcome is decided by weighing its end against the other run's next
character; no real character has weight 1, so that head comparison is
never `eq` and the remaining positions are irrelevant. -/
def cmpNonDigits : List Char → List Char → Ordering
  | [], [] => .eq
  | a :: _, [] => wcmp (charWeight (some a)) (charWeight none)
  | [], b :: _ => wcmp (charWeight none) (charWeight (some b))
  | a :: as, b :: bs => (wcmp (charWeight (some a)) (charWeight (some b))).then (cmpNonDigits as bs)

/-- Numeric value of a digit run; the empty run counts as 0. -/
def digitsVal (l : List Char) : Nat :=
  l.foldl (fun n c => n * 10 + (c.toNat - 48)) 0

/-- Modelled from the spec: one upstream or revision component is
compared by alternating runs of non-digits (via `cmpNonDigits`) and
digits (numerically).  The fuel argument only drives termination: each
round consumes at least one character, so the combined length of the
two inputs is enough fuel, and once both are empty every round yields
`eq` whatever fuel remains. -/
def verC : Nat → List Char → List Char → Ordering
  | 0, _, _ => .eq
  | fuel + 1, as, bs =>
    let na := as.takeWhile (fun c => !c.isDigit)
    let ra := as.dropWhile (fun c => !c.isDigit)
    let nb := bs.takeWhile (fun c => !c.isDigit)
    let rb := bs.dropWhile (fun c => !c.isDigit)
    let da := ra.takeWhile Char.isDigit
    let ra' := ra.dropWhile Char.isDigit
    let db := rb.takeWhile Char.isDigit
    let rb' := rb.dropWhile Char.isDigit
    (cmpNonDigits na nb).then ((wcmp (digitsVal da) (digitsVal db)).then (verC fuel ra' rb'))

/-- Run-comparison of two version components with enough fuel. -/
def verrevcmp (as bs : List Char) : Ordering :=
  verC (as.length + bs.length) as bs

/-- Modelled from the spec: split off the epoch, the number before
the first colon, defaulting to 0 when no colon is present. -/
def splitEpoch (v : List Char) : Nat × List Char :=
  if v.contains ':' then
    (digitsVal (v.takeWhile (· != ':')), (v.dropWhile (· != ':')).tail)
  else (0, v)

/-- Modelled from the spec: split upstream from the revision at the
last hyphen; without a hyphen the revision is empty. -/
def splitRevision (v : List Char) : List Char × List Char :=
  if v.contains '-' then
    let revR := v.reverse.takeWhile (· != '-')
    (v.take (v.length - revR.length - 1), revR.reverse)
  else (v, [])

/-- Modelled from the spec: compare(a, b) (section 4.3): epoch
numerically first, then upstream, then revision, the last two with the
alternating-run algorithm. -/
def debCompare (a b : List Char) : Ordering :=
  let (ea, ua') := splitEpoch a
  let (eb, ub') := splitEpoch b
  let (ua, ra) := splitRevision ua'
  let (ub, rb) := splitRevision ub'
  (wcmp ea eb).then ((verrevcmp ua ub).then (verrevcmp ra rb))

/-! ## Constraint parser and resolver, modelled from the spec -/

/-- Modelled from the spec: the package-name shape
[a-zA-Z0-9][a-zA-Z0-9+.-]* of section 4.2. -/
def specNameOk (n : List Char) : Bool :=
  match n with
  | [] => false
  | c :: cs => c.isAlphanum && cs.all (fun ch => ch.isAlphanum || ch = '+' || ch = '.' || ch = '-')

/-- Modelled from the spec: a Constraint (section 3): a package name
and an optional operator-version bound. -/
structure SpecConstraint where
  target : List Char
  bound : Option (List Char × List Char)
deriving Repr, DecidableEq

/-- Modelled from the spec: parseDepends (section 4.2).  Split on
commas; within a group only the first pipe-separated alternative is
considered; an optional parenthesised operator-version clause is
extracted; a group whose name fails the required shape is dropped. -/
def specParseDepends (raw : List Char) : List SpecConstraint :=
  (splitOnCh ',' raw).filterMap fun grp =>
    let alt := trimL ((splitOnCh '|' grp).headD [])
    let nm := trimL (alt.takeWhile (· != '('))
    if specNameOk nm then
      match alt.dropWhile (· != '(') with
      | '(' :: inner =>
        let inside := trimL (inner.takeWhile (· != ')'))
        let op := inside.takeWhile (fun c => !c.isWhitespace)
        let ver := trimL (inside.dropWhile (fun c => !c.isWhitespace))
        some ⟨nm, some (op, ver)⟩
      | _ => some ⟨nm, none⟩
    else none

/-- Modelled from the spec: the operators of section 3 evaluated with
the version comparator; an unknown operator satisfies nothing. -/
def opSatisfied (op : List Char) (candidate constraintVer : List Char) : Bool :=
  let o := debCompare candidate constraintVer
  if op = ['='] then o = Ordering.eq
  else if op = ['>', '='] then o ≠ Ordering.lt
  else if op = ['<', '='] then o ≠ Ordering.gt
  else if op = ['>', '>'] then o = Ordering.gt
  else if op = ['<', '<'] then o = Ordering.lt
  else false

/-- Modelled from the spec: the Protected Set (section 3 and the user
guide): a fixed list of system-critical package names. -/
def protectedSet : List (List Char) :=
  ["libc6".toList, "bash".toList, "dpkg".toList]

/-- Modelled from the spec: one catalog entry the resolver consults. -/
structure CatEntry where
  cname : List Char
  cversion : List Char
  cfilename : List Char
  cdepends : List Char
deriving Repr, DecidableEq

/-- A catalog is looked up by package name. -/
def lookupCat (cat : List CatEntry) (n : List Char) : Option CatEntry :=
  cat.find? fun e => e.cname == n

/-- Modelled from the spec: a constraint is satisfiable when the named
package is in the catalog and its version meets the bound (no bound
means any version). -/
def satisfiesC (cat : List CatEntry) (c : SpecConstraint) : Option CatEntry :=
  match lookupCat cat c.target with
  | none => none
  | some e =>
    match c.bound with
    | none => some e
    | some (op, v) => if opSatisfied op e.cversion v then some e else none

/-- Modelled from the spec: the memoized depth-first walk of the
resolver (section 4.4), post-order so dependencies precede dependents;
a package already in the plan is skipped (cycle breaking), and an
unsatisfiable requirement is recorded as a warning rather than
aborting (not tracked here).  The architecture tie-break and the
transition-conflict policy are not modelled; no claim depends on them. -/
def planGo (cat : List CatEntry) : Nat → List (List Char) → List Char → List (List Char)
  | 0, plan, _ => plan
  | fuel + 1, plan, n =>
    if n ∈ plan then plan
    else
      match lookupCat cat n with
      | none => plan
      | some e =>
        let plan' := (specParseDepends e.cdepends).foldl
          (fun pl c =>
            match satisfiesC cat c with
            | some child => planGo cat fuel pl child.cname
            | none => pl) plan
        if n ∈ plan' then plan' else plan' ++ [n]

/-- Errors of the resolver relevant to the claims. -/
inductive ResolveErr where
  | protectedPackage (n : List Char) : ResolveErr
  | packageNotFound (n : List Char) : ResolveErr
deriving Repr, DecidableEq

/-- Modelled from the spec: resolve(rootName, catalog) (section 4.4).
A root in the Protected Set fails immediately; an uncataloged root
fails with PackageNotFound; otherwise the memoized walk produces the
install plan. -/
def resolve (rootName : List Char) (cat : List CatEntry) :
    Except ResolveErr (List (List Char)) :=
  if rootName ∈ protectedSet then .error (.protectedPackage rootName)
  else
    match lookupCat cat rootName with
    | none => .error (.packageNotFound rootName)
    | some _ => .ok (planGo cat (cat.length + 1) [] rootName)

/-! ## Auxiliary descriptions of the committed database state -/

/-- The package rows produced by inserting `pkgs` in order starting at
AUTO_INCREMENT value `i`. -/
def pkgRowsFrom (i : Nat) : List PackageRecord → List PkgRow
  | [] => []
  | p :: ps => ⟨i, p.name, p.version, p.architecture, p.filename⟩ :: pkgRowsFrom (i + 1) ps

/-- The dependency rows produced by the dependency-insert loop given
the id map. -/
def depRowsFrom (idMap : List (List Char × Nat)) (deps : List RawDep) : List DepRow :=
  deps.filterMap fun d =>
    match mapGet idMap (keyOfOwner d.package_name) with
    | some pid => if pid ≠ 0 then some ⟨pid, d.depends_on, d.version_constraint⟩ else none
    | none => none

/-- The bindings a run of the package-insert loop adds to
`packageIdMap`, newest first. -/
def bindingsFrom (j : Nat) : List PackageRecord → List (List Char × Nat)
  | [] => []
  | p :: ps => bindingsFrom (j + 1) ps ++ [(keyOfOwner p.name, j)]

/-- Position of the last element of `pkgs` whose coerced name is `k`. -/
def lastIdxOf (k : List Char) : List PackageRecord → Option Nat
  | [] => none
  | p :: ps =>
    match lastIdxOf k ps with
    | some j => some (j + 1)
    | none => if keyOfOwner p.name = k then some 0 else none

/-! # Theorems

General lemmas about the utilities come first, then one theorem per
claim (with a witness or counterexample where required). -/

theorem splitOnCh_ne_nil (c : Char) (l : List Char) : splitOnCh c l ≠ [] := by
  induction l with
  | nil => simp [splitOnCh]
  | cons x xs ih =>
    unfold splitOnCh
    by_cases h : x = c
    · simp [h]
    · simp only [if_neg h]
      rcases hs : splitOnCh c xs with _ | ⟨chunk, chunks⟩ <;> simp

theorem splitOnCh_cons_sep (c x : Char) (xs : List Char) (h : x = c) :
    splitOnCh c (x :: xs) = [] :: splitOnCh c xs := by
  simp [splitOnCh, h]

theorem splitOnCh_cons_ne (c x : Char) (xs : List Char) (h : x ≠ c) :
    splitOnCh c (x :: xs) = (x :: (splitOnCh c xs).headD []) :: (splitOnCh c xs).tail := by
  simp only [splitOnCh, if_neg h]
  rcases hs : splitOnCh c xs with _ | ⟨chunk, chunks⟩
  · exact absurd hs (splitOnCh_ne_nil c xs)
  · simp

theorem splitOnCh_append (c : Char) (l1 l2 : List Char) :
    splitOnCh c (l1 ++ c :: l2) = splitOnCh c l1 ++ splitOnCh c l2 := by
  induction l1 with
  | nil => simp [splitOnCh]
  | cons x xs ih =>
    by_cases h : x = c
    · rw [List.cons_append, splitOnCh_cons_sep c x _ h, ih, splitOnCh_cons_sep c x xs h]
      simp
    · rw [List.cons_append, splitOnCh_cons_ne c x _ h, ih, splitOnCh_cons_ne c x xs h]
      rcases hs : splitOnCh c xs with _ | ⟨chunk, chunks⟩
      · exact absurd hs (splitOnCh_ne_nil c xs)
      · simp

theorem splitOnCh_no_sep (c : Char) (l : List Char) (h : c ∉ l) :
    splitOnCh c l = [l] := by
  induction l with
  | nil => simp [splitOnCh]
  | cons x xs ih =>
    have hx : x ≠ c := fun hc => h (hc ▸ List.mem_cons_self x xs)
    have hxs : c ∉ xs := fun hc => h (List.mem_cons_of_mem x hc)
    simp only [splitOnCh, if_neg hx, ih hxs]

theorem foldl_push_filterMap (l : List (List Char)) (acc : List (List Char × Option (List Char))) :
    l.foldl (fun a d => match parseDep d with | some r => a ++ [r] | none => a) acc
      = acc ++ l.filterMap parseDep := by
  induction l generalizing acc with
  | nil => simp
  | cons d rest ih =>
    rcases hd : parseDep d with _ | r <;> simp [List.foldl_cons, hd, ih, List.filterMap_cons]

theorem parseDependsJs_eq_filterMap (value : List Char) :
    parseDependsJs value = ((splitOnCh ',' value).map trimL).filterMap parseDep := by
  unfold parseDependsJs
  exact (foldl_push_filterMap _ []).trans (by simp)

theorem dropWhile_head_not (p : Char → Bool) (l : List Char) (c : Char)
    (h : (l.dropWhile p).head? = some c) : p c = false := by
  induction l with
  | nil => cases h
  | cons x xs ih =>
    rw [List.dropWhile_cons] at h
    by_cases hp : p x = true
    · exact ih (by simpa [hp] using h)
    · have hp' : p x = false := by simpa using hp
      simp [hp'] at h
      subst h
      exact hp'

theorem dropTrailingWs_head (l : List Char) :
    dropTrailingWs l = [] ∨ (dropTrailingWs l).head? = l.head? := by
  induction l with
  | nil => left; rfl
  | cons c cs ih =>
    unfold dropTrailingWs
    rcases h : dropTrailingWs cs with _ | ⟨r, rs⟩
    · by_cases hw : c.isWhitespace
      · left; simp [hw]
      · right; simp [hw]
    · right; simp

theorem trimL_head_not_ws (l : List Char) (c : Char) (h : (trimL l).head? = some c) :
    c.isWhitespace = false := by
  unfold trimL at h
  rcases dropTrailingWs_head (l.dropWhile Char.isWhitespace) with h0 | h0
  · rw [h0] at h; cases h
  · rw [h0] at h
    exact dropWhile_head_not _ _ _ h

theorem dropWhile_eq_self_of_head (p : Char → Bool) (l : List Char)
    (h : ∀ c, l.head? = some c → p c = false) : l.dropWhile p = l := by
  cases l with
  | nil => rfl
  | cons c cs => rw [List.dropWhile_cons, h c rfl]; simp

theorem dropTrailingWs_eq_self (l : List Char)
    (h : ∀ c, l.getLast? = some c → c.isWhitespace = false) : dropTrailingWs l = l := by
  induction l with
  | nil => rfl
  | cons c cs ih =>
    have hcs : dropTrailingWs cs = cs := by
      apply ih
      intro e he
      apply h
      cases cs with
      | nil => cases he
      | cons d ds => rw [List.getLast?_cons_cons]; exact he
    unfold dropTrailingWs
    rw [hcs]
    cases cs with
    | nil =>
      have hc := h c (by simp)
      simp [hc]
    | cons d ds => rfl

theorem trimL_eq_self (l : List Char)
    (h1 : ∀ c, l.head? = some c → c.isWhitespace = false)
    (h2 : ∀ c, l.getLast? = some c → c.isWhitespace = false) : trimL l = l := by
  unfold trimL
  rw [dropWhile_eq_self_of_head Char.isWhitespace l h1]
  exact dropTrailingWs_eq_self l h2

theorem takeWhile_all (p : Char → Bool) (l : List Char) (h : ∀ c ∈ l, p c = true) :
    l.takeWhile p = l := by
  induction l with
  | nil => rfl
  | cons c cs ih =>
    rw [List.takeWhile_cons, h c (List.mem_cons_self c cs)]
    simp only [if_true]
    rw [ih fun d hd => h d (List.mem_cons_of_mem c hd)]

theorem takeWhile_append_stop (p : Char → Bool) (l1 : List Char) (x : Char) (l2 : List Char)
    (h1 : ∀ c ∈ l1, p c = true) (hx : p x = false) :
    (l1 ++ x :: l2).takeWhile p = l1 := by
  induction l1 with
  | nil => simp [List.takeWhile_cons, hx]
  | cons c cs ih =>
    rw [List.cons_append, List.takeWhile_cons, h1 c (List.mem_cons_self c cs)]
    simp only [if_true]
    rw [ih fun d hd => h1 d (List.mem_cons_of_mem c hd)]

theorem parseDep_eq_none_of (t : List Char) (h : t.takeWhile depNameChar = []) :
    parseDep t = none := by
  simp [parseDep, h]

theorem parseDep_isSome_of (t : List Char) (h : t.takeWhile depNameChar ≠ []) :
    ∃ cons, parseDep t = some (t.takeWhile depNameChar, cons) := by
  unfold parseDep
  simp only [if_neg h]
  split
  · split
    · exact ⟨_, rfl⟩
    · exact ⟨none, rfl⟩
  · exact ⟨none, rfl⟩

theorem parseDep_none_iff (t : List Char) :
    parseDep t = none ↔ t.takeWhile depNameChar = [] := by
  constructor
  · intro h
    by_contra hne
    obtain ⟨cons, hc⟩ := parseDep_isSome_of t hne
    rw [h] at hc
    cases hc
  · exact parseDep_eq_none_of t

theorem getLast?_append_ne (l1 l2 : List Char) (h : l2 ≠ []) :
    (l1 ++ l2).getLast? = l2.getLast? := by
  rw [List.getLast?_append]
  have h2 : l2.getLast?.isSome := List.getLast?_isSome.mpr h
  rcases hy : l2.getLast? with _ | y
  · rw [hy] at h2; cases h2
  · rfl

theorem parse_foldl_closed (entries : List (List Char)) (acc : List PackageRecord × List RawDep) :
    entries.foldl
      (fun acc entry =>
        (acc.1 ++ (if truthyStr (entryFold entry).1.name then [(entryFold entry).1] else []),
         acc.2 ++ (entryFold entry).2)) acc
    = (acc.1 ++ entries.filterMap
         (fun e => if truthyStr (entryFold e).1.name then some (entryFold e).1 else none),
       acc.2 ++ (entries.map (fun e => (entryFold e).2)).flatten) := by
  induction entries generalizing acc with
  | nil => simp
  | cons e rest ih =>
    rw [List.foldl_cons, ih]
    by_cases h : truthyStr (entryFold e).1.name = true
    · simp [h, List.filterMap_cons, List.append_assoc]
    · simp only [Bool.not_eq_true] at h
      simp [h, List.filterMap_cons, List.append_assoc]

theorem parsePackagesFile_fst (content : List Char) :
    (parsePackagesFile content).1
      = (splitOn2 '\n' '\n' content).filterMap
          (fun e => if truthyStr (entryFold e).1.name then some (entryFold e).1 else none) := by
  unfold parsePackagesFile
  rw [parse_foldl_closed]
  simp

theorem parsePackagesFile_snd (content : List Char) :
    (parsePackagesFile content).2
      = ((splitOn2 '\n' '\n' content).map (fun e => (entryFold e).2)).flatten := by
  unfold parsePackagesFile
  rw [parse_foldl_closed]
  simp

/-- C1 (amended): the index parser produces exactly one PackageRecord
per blank-line-delimited stanza whose processed Package field is
present and non-empty, each stanza contributing independently of its
siblings and no stanza ever failing the whole parse, and every
produced record carries a non-empty Package field; however a stanza is
skipped only when Package is absent or empty, not when Version,
Architecture or Filename is absent. -/
theorem C1_parse_index_stanzas (content : List Char) :
    (parsePackagesFile content).1
      = (splitOn2 '\n' '\n' content).filterMap
          (fun e => if truthyStr (entryFold e).1.name then some (entryFold e).1 else none)
    ∧ ∀ p ∈ (parsePackagesFile content).1, ∃ v, p.name = some v ∧ v ≠ [] := by
  refine ⟨parsePackagesFile_fst content, ?_⟩
  intro p hp
  rw [parsePackagesFile_fst content, List.mem_filterMap] at hp
  obtain ⟨e, _, he⟩ := hp
  by_cases h : truthyStr (entryFold e).1.name = true
  · rw [if_pos h] at he
    simp only [Option.some.injEq] at he
    subst he
    rcases hn : (entryFold e).1.name with _ | v
    · rw [hn] at h; simp [truthyStr] at h
    · rw [hn] at h
      simp only [truthyStr, Bool.not_eq_true'] at h
      refine ⟨v, rfl, ?_⟩
      intro hv
      subst hv
      simp at h
  · rw [if_neg h] at he
    cases he

/-- C1 counterexample: the claim requires a stanza missing any of
Version, Architecture or Filename to be skipped, but the stanza
consisting only of a Package line still yields a record. -/
theorem C1_counterexample :
    parsePackagesFile ("Package: foo".toList)
        = ([⟨some "foo".toList, none, none, none⟩], [])
    ∧ (parsePackagesFile ("Package: foo".toList)).1 ≠ [] := by
  constructor <;> decide

theorem mem_of_getLast?_eq {l : List Char} {a : Char} (h : l.getLast? = some a) : a ∈ l := by
  obtain ⟨hne, ha⟩ := List.mem_getLast?_eq_getLast (show a ∈ l.getLast? from h)
  rw [ha]
  exact List.getLast_mem hne

theorem depNameChar_not_ws {c : Char} (h : depNameChar c = true) : c.isWhitespace = false := by
  unfold depNameChar at h
  simp only [Bool.and_eq_true, bne_iff_ne, Bool.not_eq_true'] at h
  exact h.1

theorem parseDep_bare (nm : List Char) (hnm : nm ≠ [])
    (hall : ∀ c ∈ nm, depNameChar c = true) : parseDep nm = some (nm, none) := by
  unfold parseDep
  rw [takeWhile_all depNameChar nm hall]
  rw [if_neg hnm]
  rw [List.drop_length]
  rfl

theorem dropWhile_sp_cons (x : Char) (l : List Char) (hx : x.isWhitespace = false) :
    (' ' :: x :: l).dropWhile Char.isWhitespace = x :: l := by
  rw [List.dropWhile_cons, if_pos (by decide), List.dropWhile_cons, hx]
  simp

theorem parseDep_alt (nm rest0 : List Char) (hnm : nm ≠ [])
    (hall : ∀ c ∈ nm, depNameChar c = true) :
    parseDep (nm ++ ' ' :: '|' :: ' ' :: rest0) = some (nm, none) := by
  unfold parseDep
  rw [takeWhile_append_stop depNameChar nm ' ' _ hall (by decide)]
  rw [if_neg hnm]
  rw [List.drop_left]
  rw [dropWhile_sp_cons '|' (' ' :: rest0) (by decide)]
  rw [if_neg (by simp : ¬(('|' :: ' ' :: rest0).head? = some '('))]

theorem parseDep_paren (nm cl : List Char) (hnm : nm ≠ [])
    (hall : ∀ c ∈ nm, depNameChar c = true) (hcl : cl ≠ [])
    (hclc : ∀ c ∈ cl, c ≠ ')') :
    parseDep (nm ++ ' ' :: '(' :: (cl ++ [')'])) = some (nm, some cl) := by
  unfold parseDep
  rw [takeWhile_append_stop depNameChar nm ' ' _ hall (by decide)]
  rw [if_neg hnm]
  rw [List.drop_left]
  rw [dropWhile_sp_cons '(' (cl ++ [')']) (by decide)]
  rw [if_pos (by simp : (('(' :: (cl ++ [')'])).head? = some '('))]
  simp only [List.tail_cons]
  rw [takeWhile_append_stop _ cl ')' [] (fun c hc => by simp [hclc c hc]) (by decide)]
  rw [List.drop_left]
  rw [if_pos ⟨hcl, by simp⟩]

theorem parseDependsJs_single (g : List Char) (hg : ',' ∉ g) :
    parseDependsJs g = (parseDep (trimL g)).toList := by
  rw [parseDependsJs_eq_filterMap, splitOnCh_no_sep ',' g hg]
  cases h : parseDep (trimL g) <;> simp [h]

/-- C2 (amended): parseDepends splits on commas into one requirement
per comma-separated group; within a group the extracted package name
is the maximal prefix of characters that are neither whitespace nor an
opening parenthesis, which coincides with the first pipe-separated
alternative whenever the pipe is preceded by whitespace (a pipe glued
to the name is absorbed into it); an optional parenthesised clause is
extracted and its absence leaves the requirement without a version
constraint. -/
theorem C2_parse_depends_groups :
    (∀ g1 g2 : List Char,
        parseDependsJs (g1 ++ ',' :: g2) = parseDependsJs g1 ++ parseDependsJs g2)
    ∧ (∀ nm rest0 : List Char, nm ≠ [] → (∀ c ∈ nm, depNameChar c = true ∧ c ≠ ',') →
        rest0 ≠ [] → (∀ c ∈ rest0, c.isWhitespace = false ∧ c ≠ ',') →
        parseDependsJs (nm ++ ' ' :: '|' :: ' ' :: rest0) = [(nm, none)])
    ∧ (∀ nm cl : List Char, nm ≠ [] → (∀ c ∈ nm, depNameChar c = true ∧ c ≠ ',') →
        cl ≠ [] → (∀ c ∈ cl, c ≠ ')' ∧ c ≠ ',') →
        parseDependsJs (nm ++ ' ' :: '(' :: (cl ++ [')'])) = [(nm, some cl)])
    ∧ (∀ nm : List Char, nm ≠ [] → (∀ c ∈ nm, depNameChar c = true ∧ c ≠ ',') →
        parseDependsJs nm = [(nm, none)]) := by
  refine ⟨?_, ?_, ?_, ?_⟩
  · intro g1 g2
    rw [parseDependsJs_eq_filterMap, parseDependsJs_eq_filterMap,
      parseDependsJs_eq_filterMap, splitOnCh_append, List.map_append, List.filterMap_append]
  · intro nm rest0 hnm hall hr0 hr
    have hgc : ',' ∉ nm ++ ' ' :: '|' :: ' ' :: rest0 := by
      intro hm
      rcases List.mem_append.mp hm with h1 | h2
      · exact (hall ',' h1).2 rfl
      · simp only [List.mem_cons] at h2
        rcases h2 with h | h | h | h
        · exact absurd h (by decide)
        · exact absurd h (by decide)
        · exact absurd h (by decide)
        · exact (hr ',' h).2 rfl
    have hhead : ∀ c, (nm ++ ' ' :: '|' :: ' ' :: rest0).head? = some c →
        c.isWhitespace = false := by
      cases nm with
      | nil => exact absurd rfl hnm
      | cons a na =>
        intro c hc
        simp only [List.cons_append, List.head?_cons, Option.some.injEq] at hc
        subst hc
        exact depNameChar_not_ws (hall a (List.mem_cons_self a na)).1
    have hlast : ∀ c, (nm ++ ' ' :: '|' :: ' ' :: rest0).getLast? = some c →
        c.isWhitespace = false := by
      intro c hc
      rw [getLast?_append_ne nm _ (by simp)] at hc
      rw [show (' ' :: '|' :: ' ' :: rest0) = [' ', '|', ' '] ++ rest0 from rfl] at hc
      rw [getLast?_append_ne _ _ hr0] at hc
      exact (hr c (mem_of_getLast?_eq hc)).1
    rw [parseDependsJs_single _ hgc, trimL_eq_self _ hhead hlast,
      parseDep_alt nm rest0 hnm (fun c hc => (hall c hc).1)]
    rfl
  · intro nm cl hnm hall hcl hclc
    have hgc : ',' ∉ nm ++ ' ' :: '(' :: (cl ++ [')']) := by
      intro hm
      rcases List.mem_append.mp hm with h1 | h2
      · exact (hall ',' h1).2 rfl
      · simp only [List.mem_cons] at h2
        rcases h2 with h | h | h
        · exact absurd h (by decide)
        · exact absurd h (by decide)
        · rcases List.mem_append.mp h with h3 | h3
          · exact (hclc ',' h3).2 rfl
          · simp only [List.mem_singleton] at h3
            exact absurd h3 (by decide)
    have hhead : ∀ c, (nm ++ ' ' :: '(' :: (cl ++ [')'])).head? = some c →
        c.isWhitespace = false := by
      cases nm with
      | nil => exact absurd rfl hnm
      | cons a na =>
        intro c hc
        simp only [List.cons_append, List.head?_cons, Option.some.injEq] at hc
        subst hc
        exact depNameChar_not_ws (hall a (List.mem_cons_self a na)).1
    have hlast : ∀ c, (nm ++ ' ' :: '(' :: (cl ++ [')'])).getLast? = some c →
        c.isWhitespace = false := by
      intro c hc
      rw [getLast?_append_ne nm _ (by simp)] at hc
      rw [show (' ' :: '(' :: (cl ++ [')'])) = [' ', '('] ++ (cl ++ [')']) from rfl] at hc
      rw [getLast?_append_ne _ _ (by simp)] at hc
      rw [List.getLast?_concat] at hc
      simp only [Option.some.injEq] at hc
      subst hc
      decide
    rw [parseDependsJs_single _ hgc, trimL_eq_self _ hhead hlast,
      parseDep_paren nm cl hnm (fun c hc => (hall c hc).1) hcl (fun c hc => (hclc c hc).1)]
    rfl
  · intro nm hnm hall
    have hgc : ',' ∉ nm := fun hm => (hall ',' hm).2 rfl
    have hhead : ∀ c, nm.head? = some c → c.isWhitespace = false := by
      intro c hc
      have : c ∈ nm := List.mem_of_mem_head? (by rw [hc]; exact rfl)
      exact depNameChar_not_ws (hall c this).1
    have hlast : ∀ c, nm.getLast? = some c → c.isWhitespace = false := by
      intro c hc
      exact depNameChar_not_ws (hall c (mem_of_getLast?_eq hc)).1
    rw [parseDependsJs_single _ hgc, trimL_eq_self _ hhead hlast,
      parseDep_bare nm hnm (fun c hc => (hall c hc).1)]
    rfl

/-- C2 witness: the amended statement applied to the bare group "a". -/
theorem C2_witness : parseDependsJs ("a".toList) = [("a".toList, none)] :=
  C2_parse_depends_groups.2.2.2 ("a".toList) (by decide) (by decide)

/-- C2 counterexample: in the group written "a|b" (no blanks around
the pipe) the parser does not keep only the first alternative "a"; the
whole text "a|b" becomes the extracted package name. -/
theorem C2_counterexample :
    parseDependsJs ("a|b".toList) = [("a|b".toList, none)]
    ∧ "a|b".toList ≠ "a".toList := by
  constructor <;> decide

/-- C1 witness: the stanza-wise description instantiated on a concrete
two-stanza index text. -/
theorem C1_witness :
    (parsePackagesFile ("Package: a\n\nPackage: b".toList)).1
      = (splitOn2 '\n' '\n' ("Package: a\n\nPackage: b".toList)).filterMap
          (fun e => if truthyStr (entryFold e).1.name then some (entryFold e).1 else none) :=
  (C1_parse_index_stanzas ("Package: a\n\nPackage: b".toList)).1

/-- C3 (amended): a comma-separated group is dropped exactly when its
trimmed text is empty or starts with an opening parenthesis; the
parser performs no validation of the name shape, so the emitted names
are precisely the maximal prefixes of non-whitespace non-parenthesis
characters, whatever characters those are. -/
theorem C3_name_validation (raw : List Char) :
    parseDependsJs raw = ((splitOnCh ',' raw).map trimL).filterMap parseDep
    ∧ (∀ t ∈ (splitOnCh ',' raw).map trimL,
        (parseDep t = none ↔ (t = [] ∨ t.head? = some '(')))
    ∧ ∀ r ∈ parseDependsJs raw, r.1 ≠ [] ∧ ∀ c ∈ r.1, depNameChar c = true := by
  refine ⟨parseDependsJs_eq_filterMap raw, ?_, ?_⟩
  · intro t ht
    rw [List.mem_map] at ht
    obtain ⟨g, _, hg⟩ := ht
    subst hg
    rw [parseDep_none_iff]
    rcases he : trimL g with _ | ⟨c, ts⟩
    · simp
    · rw [List.takeWhile_cons]
      have hws : c.isWhitespace = false := trimL_head_not_ws g c (by rw [he]; rfl)
      by_cases hc : c = '('
      · subst hc; simp [depNameChar]
      · have hd : depNameChar c = true := by
          unfold depNameChar
          simp [hws, hc]
        simp [hd, hc]
  · intro r hr
    rw [parseDependsJs_eq_filterMap, List.mem_filterMap] at hr
    obtain ⟨t, _, hp⟩ := hr
    have hname : r.1 = t.takeWhile depNameChar := by
      by_cases h : t.takeWhile depNameChar = []
      · rw [parseDep_eq_none_of t h] at hp; cases hp
      · obtain ⟨cons, hc⟩ := parseDep_isSome_of t h
        rw [hc] at hp
        simp only [Option.some.injEq] at hp
        rw [← hp]
    constructor
    · rw [hname]
      intro hempty
      rw [parseDep_eq_none_of t hempty] at hp
      cases hp
    · intro c hcmem
      rw [hname] at hcmem
      exact List.mem_takeWhile_imp hcmem

/-- C3 witness: the characterisation instantiated on the raw value
"x". -/
theorem C3_witness :
    parseDependsJs ("x".toList)
      = ((splitOnCh ',' ("x".toList)).map trimL).filterMap parseDep :=
  (C3_name_validation ("x".toList)).1

/-- C3 counterexample: the group name starting with an underscore
fails the shape [a-zA-Z0-9][a-zA-Z0-9+.-]* that the claim says is
enforced, yet the parser keeps the group instead of dropping it. -/
theorem C3_counterexample :
    parseDependsJs ("_bad".toList) = [("_bad".toList, none)]
    ∧ specNameOk ("_bad".toList) = false := by
  constructor <;> decide

/-! ## Lemmas about the update transaction -/

theorem foldl_insertPackages (pkgs : List PackageRecord) (w : Db) :
    (pkgs.map Query.insertPackage).foldl applyQuery w
      = ⟨w.packages ++ pkgRowsFrom w.nextId pkgs, w.dependencies, w.nextId + pkgs.length⟩ := by
  induction pkgs generalizing w with
  | nil => simp [pkgRowsFrom]
  | cons p ps ih =>
    simp only [List.map_cons, List.foldl_cons]
    rw [ih]
    simp only [applyQuery, pkgRowsFrom, Db.mk.injEq, List.append_assoc,
      List.singleton_append, List.length_cons]
    exact ⟨trivial, trivial, by omega⟩

theorem foldl_insertDeps (deps : List RawDep) (idMap : List (List Char × Nat)) (w : Db) :
    (deps.filterMap (fun d =>
        match mapGet idMap (keyOfOwner d.package_name) with
        | some pid =>
          if pid ≠ 0 then some (Query.insertDependency pid d.depends_on d.version_constraint)
          else none
        | none => none)).foldl applyQuery w
      = ⟨w.packages, w.dependencies ++ depRowsFrom idMap deps, w.nextId⟩ := by
  induction deps generalizing w with
  | nil => simp [depRowsFrom]
  | cons d ds ih =>
    rcases hm : mapGet idMap (keyOfOwner d.package_name) with _ | pid
    · simp only [List.filterMap_cons, hm]
      rw [ih]
      simp [depRowsFrom, List.filterMap_cons, hm]
    · by_cases hz : pid ≠ 0
      · simp only [List.filterMap_cons, hm, if_pos hz, List.foldl_cons]
        rw [ih]
        simp [applyQuery, depRowsFrom, List.filterMap_cons, hm, hz]
      · simp only [List.filterMap_cons, hm, if_neg hz]
        rw [ih]
        simp [depRowsFrom, List.filterMap_cons, hm, hz]

theorem runUpdate_none (db : Db) (pkgs : List PackageRecord) (deps : List RawDep) :
    runUpdate db pkgs deps none
      = (⟨pkgRowsFrom db.nextId pkgs,
          depRowsFrom (buildIdMap db.nextId pkgs) deps,
          db.nextId + pkgs.length⟩, .updated) := by
  show ((updateQueries db.nextId pkgs deps).foldl applyQuery db, UpdateResponse.updated) = _
  unfold updateQueries
  rw [List.foldl_append, List.foldl_append]
  rw [show ([Query.clearDependencies, Query.clearPackages].foldl applyQuery db)
        = (⟨[], [], db.nextId⟩ : Db) from rfl]
  rw [foldl_insertPackages]
  rw [foldl_insertDeps]
  simp

theorem pkgRowsFrom_fields (i : Nat) (pkgs : List PackageRecord) :
    (pkgRowsFrom i pkgs).map (fun r => (r.rname, r.rversion, r.rarchitecture, r.rfilename))
      = pkgs.map (fun p => (p.name, p.version, p.architecture, p.filename)) := by
  induction pkgs generalizing i with
  | nil => rfl
  | cons p ps ih => simp [pkgRowsFrom, ih]

theorem pkgRowsFrom_id_ge (i : Nat) (pkgs : List PackageRecord) :
    ∀ r ∈ pkgRowsFrom i pkgs, i ≤ r.rid := by
  induction pkgs generalizing i with
  | nil => intro r hr; cases hr
  | cons p ps ih =>
    intro r hr
    rcases List.mem_cons.mp hr with h | h
    · subst h; exact Nat.le_refl i
    · exact Nat.le_trans (Nat.le_succ i) (ih (i + 1) r h)

/-- C4: when any statement of the rewrite transaction (the clears or
the inserts) throws, the transaction is rolled back, so the packages
and dependencies tables are exactly as before the call, and the
endpoint reports failure. -/
theorem C4_refresh_rollback (db : Db) (pkgs : List PackageRecord) (deps : List RawDep)
    (k : Nat) (hk : k < (updateQueries db.nextId pkgs deps).length) :
    (runUpdate db pkgs deps (some k)).1.packages = db.packages
    ∧ (runUpdate db pkgs deps (some k)).1.dependencies = db.dependencies
    ∧ (runUpdate db pkgs deps (some k)).2 = .failed := by
  have hred : runUpdate db pkgs deps (some k)
      = ({ db with nextId :=
            (((updateQueries db.nextId pkgs deps).take k).foldl applyQuery db).nextId },
         .failed) := by
    simp only [runUpdate]
    rw [if_pos hk]
  rw [hred]
  exact ⟨rfl, rfl, rfl⟩

/-- C4 witness: a failure injected at the first DELETE of a database
holding one package row and one dependency row leaves both tables
intact. -/
theorem C4_witness :
    (runUpdate ⟨[⟨1, some ("x".toList), none, none, none⟩], [⟨1, "y".toList, none⟩], 2⟩
        [] [] (some 0)).1.packages
      = [⟨1, some ("x".toList), none, none, none⟩] :=
  (C4_refresh_rollback ⟨[⟨1, some ("x".toList), none, none, none⟩], [⟨1, "y".toList, none⟩], 2⟩
    [] [] 0 (by decide)).1

/-- C5 (amended): a committed refresh replaces the catalog wholesale:
the packages table holds exactly the parsed package records (in order,
under fresh AUTO_INCREMENT ids), no pre-refresh row survives in it,
and the dependencies table holds exactly the rows derived from the
parsed dependencies whose owner key is bound in the package-id map;
parsed dependencies with an unbound owner key are dropped, so the
dependencies table need not contain every parsed record. -/
theorem C5_wholesale_replacement (db : Db) (content : List Char)
    (hid : ∀ r ∈ db.packages, r.rid < db.nextId) :
    (runUpdate db (parsePackagesFile content).1 (parsePackagesFile content).2 none).2 = .updated
    ∧ (runUpdate db (parsePackagesFile content).1 (parsePackagesFile content).2
          none).1.packages.map (fun r => (r.rname, r.rversion, r.rarchitecture, r.rfilename))
        = (parsePackagesFile content).1.map
            (fun p => (p.name, p.version, p.architecture, p.filename))
    ∧ (∀ r ∈ (runUpdate db (parsePackagesFile content).1 (parsePackagesFile content).2
          none).1.packages, db.nextId ≤ r.rid)
    ∧ (∀ r ∈ db.packages,
        r ∉ (runUpdate db (parsePackagesFile content).1 (parsePackagesFile content).2
          none).1.packages)
    ∧ (runUpdate db (parsePackagesFile content).1 (parsePackagesFile content).2
          none).1.dependencies
        = depRowsFrom (buildIdMap db.nextId (parsePackagesFile content).1)
            (parsePackagesFile content).2 := by
  rw [runUpdate_none]
  refine ⟨rfl, pkgRowsFrom_fields _ _, pkgRowsFrom_id_ge _ _, ?_, rfl⟩
  intro r hr hmem
  have h1 := pkgRowsFrom_id_ge db.nextId (parsePackagesFile content).1 r hmem
  have h2 := hid r hr
  omega

/-- C5 witness: the replacement description instantiated on a database
holding one stale package row and a one-stanza index text. -/
theorem C5_witness :
    (runUpdate ⟨[⟨0, some ("old".toList), none, none, none⟩], [], 1⟩
        (parsePackagesFile ("Package: a\nVersion: 1".toList)).1
        (parsePackagesFile ("Package: a\nVersion: 1".toList)).2 none).2 = .updated :=
  (C5_wholesale_replacement ⟨[⟨0, some ("old".toList), none, none, none⟩], [], 1⟩
    ("Package: a\nVersion: 1".toList) (by decide)).1

/-- C5 counterexample: a stanza consisting only of a Depends line
produces a parsed dependency record, but the committed dependencies
table is empty, so the table does not contain exactly the parsed
records. -/
theorem C5_counterexample :
    (parsePackagesFile
        ("Depends: x\n\nPackage: a\nVersion: 1\nArchitecture: amd64\nFilename: f".toList)).2 ≠ []
    ∧ (runUpdate ⟨[], [], 1⟩
        (parsePackagesFile
          ("Depends: x\n\nPackage: a\nVersion: 1\nArchitecture: amd64\nFilename: f".toList)).1
        (parsePackagesFile
          ("Depends: x\n\nPackage: a\nVersion: 1\nArchitecture: amd64\nFilename: f".toList)).2
        none).1.dependencies = [] := by
  constructor <;> decide

theorem buildIdMap_foldl (pkgs : List PackageRecord) (m : List (List Char × Nat)) (j : Nat) :
    pkgs.foldl (fun st p => (mapSet st.1 (keyOfOwner p.name) st.2, st.2 + 1)) (m, j)
      = (bindingsFrom j pkgs ++ m, j + pkgs.length) := by
  induction pkgs generalizing m j with
  | nil => simp [bindingsFrom]
  | cons p ps ih =>
    simp only [List.foldl_cons]
    rw [ih]
    simp only [bindingsFrom, mapSet, List.append_assoc, List.singleton_append,
      List.length_cons, Prod.mk.injEq]
    exact ⟨trivial, by omega⟩

theorem buildIdMap_eq (startId : Nat) (pkgs : List PackageRecord) :
    buildIdMap startId pkgs = bindingsFrom startId pkgs := by
  unfold buildIdMap
  rw [buildIdMap_foldl]
  simp

theorem mapGet_nil (k : List Char) : mapGet [] k = none := rfl

theorem mapGet_bindingsFrom (k : List Char) (pkgs : List PackageRecord) (j : Nat) :
    mapGet (bindingsFrom j pkgs) k = (lastIdxOf k pkgs).map (fun i => j + i) := by
  induction pkgs generalizing j with
  | nil => rfl
  | cons p ps ih =>
    show mapGet (bindingsFrom (j + 1) ps ++ [(keyOfOwner p.name, j)]) k = _
    unfold mapGet
    rw [List.find?_append]
    rcases hl : lastIdxOf k ps with _ | i
    · have hfind : (bindingsFrom (j + 1) ps).find? (fun e => e.1 == k) = none := by
        have hm := ih (j + 1)
        unfold mapGet at hm
        rw [hl] at hm
        simpa using hm
      rw [hfind]
      simp only [Option.none_or]
      by_cases hkey : keyOfOwner p.name = k
      · simp [List.find?, hkey, lastIdxOf, hl]
      · have hkb : (keyOfOwner p.name == k) = false := by simpa using hkey
        simp [List.find?, hkb, lastIdxOf, hl, hkey]
    · have hm := ih (j + 1)
      unfold mapGet at hm
      rw [hl] at hm
      rcases hfind : (bindingsFrom (j + 1) ps).find? (fun e => e.1 == k) with _ | e
      · rw [hfind] at hm; simp at hm
      · rw [hfind] at hm
        simp only [Option.map_some', Option.some.injEq] at hm
        rw [hfind]
        simp only [Option.or, Option.map_some', lastIdxOf, hl, Option.some.injEq]
        omega

/-- C10 (amended): all package rows are inserted, in order, under
consecutive fresh ids; the name-to-id map binds each key to the id of
the last-inserted package row whose key it is (last-write-wins); each
parsed dependency is attributed to the id bound to its owner key and a
dependency whose owner key is unbound is skipped.  Because the
JavaScript map lookup coerces an undefined owner to the string key
"undefined", a dependency whose owning stanza produced no Package name
is skipped only as long as no package literally named "undefined" was
inserted; otherwise it is attributed to that package's id. -/
theorem C10_id_map_attribution (db : Db) (pkgs : List PackageRecord) (deps : List RawDep)
    (h1 : 1 ≤ db.nextId) :
    (runUpdate db pkgs deps none).1.packages = pkgRowsFrom db.nextId pkgs
    ∧ (∀ k : List Char, mapGet (buildIdMap db.nextId pkgs) k
        = (lastIdxOf k pkgs).map (fun i => db.nextId + i))
    ∧ (runUpdate db pkgs deps none).1.dependencies
        = deps.filterMap (fun d =>
            ((lastIdxOf (keyOfOwner d.package_name) pkgs).map (fun i => db.nextId + i)).map
              (fun pid => ⟨pid, d.depends_on, d.version_constraint⟩)) := by
  rw [runUpdate_none]
  refine ⟨rfl, ?_, ?_⟩
  · intro k
    rw [buildIdMap_eq, mapGet_bindingsFrom]
  · show depRowsFrom (buildIdMap db.nextId pkgs) deps = _
    unfold depRowsFrom
    apply congrArg (fun f => List.filterMap f deps)
    funext d
    rw [buildIdMap_eq, mapGet_bindingsFrom]
    rcases lastIdxOf (keyOfOwner d.package_name) pkgs with _ | i
    · rfl
    · simp only [Option.map_some']
      rw [if_pos (by omega : db.nextId + i ≠ 0)]

/-- C10 witness: the attribution description instantiated on two
same-named packages and one dependency, which lands on the id of the
second (later) package row. -/
theorem C10_witness :
    (runUpdate ⟨[], [], 1⟩
        [⟨some ("a".toList), none, none, none⟩, ⟨some ("a".toList), none, none, none⟩]
        [⟨some ("a".toList), "x".toList, none⟩] none).1.dependencies
      = [⟨2, "x".toList, none⟩] := by
  have h := (C10_id_map_attribution ⟨[], [], 1⟩
    [⟨some ("a".toList), none, none, none⟩, ⟨some ("a".toList), none, none, none⟩]
    [⟨some ("a".toList), "x".toList, none⟩] (by decide)).2.2
  rw [h]
  decide

/-- C10 counterexample: the dependency stanza produced no Package
name, yet its row is not skipped; the JavaScript lookup coerces the
undefined owner to the key "undefined" and attributes the row to the
package of that name. -/
theorem C10_counterexample :
    (parsePackagesFile
        ("Package: undefined\nVersion: 1\nArchitecture: amd64\nFilename: u\n\nDepends: x".toList)).2
      = [⟨none, "x".toList, none⟩]
    ∧ (runUpdate ⟨[], [], 1⟩
        (parsePackagesFile
          ("Package: undefined\nVersion: 1\nArchitecture: amd64\nFilename: u\n\nDepends: x".toList)).1
        (parsePackagesFile
          ("Package: undefined\nVersion: 1\nArchitecture: amd64\nFilename: u\n\nDepends: x".toList)).2
        none).1.dependencies
      = [⟨1, "x".toList, none⟩] := by
  constructor <;> decide

/-- C6: starting from an empty cache, two unforced catalog retrievals
inside the TTL window perform exactly one network fetch between them;
the second call is served from the cache entry written by the first
and performs none. -/
theorem C6_catalog_cache_single_fetch (net1 net2 : List PackageRecord) (t1 t2 : Nat)
    (h12 : t1 ≤ t2) (httl : t2 - t1 < indexTTL) :
    (getCatalog net1 none t1 false).2.2 = 1
    ∧ (getCatalog net2 (getCatalog net1 none t1 false).2.1 t2 false).2.2 = 0
    ∧ (getCatalog net2 (getCatalog net1 none t1 false).2.1 t2 false).1 = net1 := by
  have hfirst : (getCatalog net1 none t1 false).2.1 = some ⟨net1, t1⟩ := rfl
  have hc : getCatalog net2 (some (⟨net1, t1⟩ : IndexCache)) t2 false
      = (net1, some ⟨net1, t1⟩, 0) := by
    simp [getCatalog, httl]
  refine ⟨rfl, ?_, ?_⟩ <;> rw [hfirst, hc]

/-- C6 witness: the cache behaviour at fetch time 0 and re-read time
10. -/
theorem C6_witness : (getCatalog [] none 0 false).2.2 = 1 :=
  (C6_catalog_cache_single_fetch [] [] 0 10 (by decide) (by decide)).1

/-- C7: an authenticated log-download request appends exactly one row
carrying the eight outcome fields of the body (user identity, package
name, version, the two durations, client address and the two status
fields) and is answered with success; a request with no usable token
is answered 401 and a request whose token the verifier rejects is
answered 403, neither inserting anything. -/
theorem C7_log_download {U : Type} (verify : List Char → Option U) (body : LogBody)
    (table : List DlRow) :
    (∀ h t u, (splitOnCh ' ' h)[1]? = some t → t ≠ [] → verify t = some u →
        logDownload (some h) verify body table = (table ++ [rowOfBody body], .okLogged))
    ∧ logDownload none verify body table = (table, .status401)
    ∧ (∀ h t, (splitOnCh ' ' h)[1]? = some t → t ≠ [] → verify t = none →
        logDownload (some h) verify body table = (table, .status403)) := by
  refine ⟨?_, rfl, ?_⟩
  · intro h t u ht htne hv
    simp [logDownload, checkAuth, ht, htne, hv]
  · intro h t ht htne hv
    simp [logDownload, checkAuth, ht, htne, hv]

/-- C7 witness: a concrete authenticated request inserts its one row
and is answered with success. -/
theorem C7_witness :
    logDownload (some ("Bearer tok".toList))
        (fun t => if t = "tok".toList then some 0 else none)
        ⟨some ("u1".toList), some ("pkg".toList), some ("1.0".toList), some ("0.50".toList),
         some ("1.25".toList), some ("10.0.0.7".toList), some ("success".toList),
         some ("success".toList)⟩
        []
      = ([rowOfBody ⟨some ("u1".toList), some ("pkg".toList), some ("1.0".toList),
          some ("0.50".toList), some ("1.25".toList), some ("10.0.0.7".toList),
          some ("success".toList), some ("success".toList)⟩], .okLogged) :=
  (C7_log_download (fun t => if t = "tok".toList then some 0 else none) _ _).1
    ("Bearer tok".toList) ("tok".toList) 0 (by decide) (by decide) (by decide)

/-- C9: resolving any name in the Protected Set fails immediately with
the ProtectedPackage error, for every catalog, and produces no plan. -/
theorem C9_protected_resolution (n : List Char) (cat : List CatEntry)
    (h : n ∈ protectedSet) :
    resolve n cat = .error (.protectedPackage n) := by
  unfold resolve
  rw [if_pos h]

/-- C9 witness: resolving bash is refused on the empty catalog. -/
theorem C9_witness :
    resolve ("bash".toList) [] = .error (.protectedPackage ("bash".toList)) :=
  C9_protected_resolution ("bash".toList) [] (by decide)

/-! ## Lemmas for the version comparator -/

theorem wcmp_refl (n : Nat) : wcmp n n = .eq := by
  unfold wcmp
  simp

theorem wcmp_eq_iff (m n : Nat) : wcmp m n = .eq ↔ m = n := by
  unfold wcmp
  by_cases h1 : m < n
  · simp only [if_pos h1]
    constructor
    · intro h; cases h
    · omega
  · by_cases h2 : n < m
    · simp only [if_neg h1, if_pos h2]
      constructor
      · intro h; cases h
      · omega
    · simp only [if_neg h1, if_neg h2, true_iff]
      omega

theorem wcmp_lt_iff (m n : Nat) : wcmp m n = .lt ↔ m < n := by
  unfold wcmp
  by_cases h1 : m < n
  · simp [h1]
  · by_cases h2 : n < m <;> simp [h1, h2]

theorem wcmp_swap (m n : Nat) : (wcmp m n).swap = wcmp n m := by
  unfold wcmp
  by_cases h1 : m < n
  · rw [if_pos h1, if_neg (by omega : ¬n < m), if_pos h1]
    rfl
  · by_cases h2 : n < m
    · rw [if_neg h1, if_pos h2, if_pos h2]
      rfl
    · rw [if_neg h1, if_neg h2, if_neg h2, if_neg h1]
      rfl

theorem charWeight_ne_one (c : Char) : charWeight (some c) ≠ 1 := by
  unfold charWeight
  by_cases h : c = '~' <;> simp [h]

theorem charWeight_none : charWeight none = 1 := rfl

theorem then_of_ne_eq (o z : Ordering) (h : o ≠ .eq) : o.then z = o := by
  cases o with
  | lt => rfl
  | eq => exact absurd rfl h
  | gt => rfl

theorem eq_then (z : Ordering) : Ordering.eq.then z = z := rfl

theorem cmpNonDigits_refl (a : List Char) : cmpNonDigits a a = .eq := by
  induction a with
  | nil => rfl
  | cons x xs ih =>
    show (wcmp (charWeight (some x)) (charWeight (some x))).then (cmpNonDigits xs xs) = .eq
    rw [wcmp_refl, eq_then, ih]

theorem cmpNonDigits_swap (a b : List Char) : (cmpNonDigits a b).swap = cmpNonDigits b a := by
  induction a generalizing b with
  | nil =>
    cases b with
    | nil => rfl
    | cons y ys => exact wcmp_swap _ _
  | cons x xs ih =>
    cases b with
    | nil => exact wcmp_swap _ _
    | cons y ys =>
      show ((wcmp _ _).then (cmpNonDigits xs ys)).swap = (wcmp _ _).then (cmpNonDigits ys xs)
      rw [Ordering.swap_then, wcmp_swap, ih]

theorem cmpNonDigits_eq_congr : ∀ (a b : List Char), cmpNonDigits a b = .eq →
    ∀ c, cmpNonDigits b c = cmpNonDigits a c := by
  intro a
  induction a with
  | nil =>
    intro b hab c
    cases b with
    | nil => rfl
    | cons y ys =>
      exfalso
      have h1 : (1 : Nat) = charWeight (some y) :=
        (wcmp_eq_iff _ _).mp (show wcmp (charWeight none) (charWeight (some y)) = .eq from hab)
      exact charWeight_ne_one y h1.symm
  | cons x xs ih =>
    intro b hab c
    cases b with
    | nil =>
      exfalso
      have h1 : charWeight (some x) = 1 :=
        (wcmp_eq_iff _ _).mp (show wcmp (charWeight (some x)) (charWeight none) = .eq from hab)
      exact charWeight_ne_one x h1
    | cons y ys =>
      obtain ⟨h1, h2⟩ := Ordering.then_eq_eq.mp hab
      have hw : charWeight (some x) = charWeight (some y) := (wcmp_eq_iff _ _).mp h1
      cases c with
      | nil =>
        show wcmp (charWeight (some y)) (charWeight none)
            = wcmp (charWeight (some x)) (charWeight none)
        rw [hw]
      | cons z zs =>
        show (wcmp (charWeight (some y)) (charWeight (some z))).then (cmpNonDigits ys zs)
            = (wcmp (charWeight (some x)) (charWeight (some z))).then (cmpNonDigits xs zs)
        rw [hw, ih ys h2 zs]

theorem cmpNonDigits_eq_congr_right : ∀ (b c : List Char), cmpNonDigits b c = .eq →
    ∀ a, cmpNonDigits a b = cmpNonDigits a c := by
  intro b c hbc a
  have hcb : cmpNonDigits c b = .eq := by
    rw [← cmpNonDigits_swap b c, hbc]
    rfl
  rw [← cmpNonDigits_swap b a, ← cmpNonDigits_swap c a,
    cmpNonDigits_eq_congr c b hcb a]

theorem cmpNonDigits_lt_trans : ∀ (a b c : List Char), cmpNonDigits a b = .lt →
    cmpNonDigits b c = .lt → cmpNonDigits a c = .lt := by
  intro a
  induction a with
  | nil =>
    intro b c hab hbc
    cases b with
    | nil => cases hab
    | cons y ys =>
      have h1 : 1 < charWeight (some y) :=
        (wcmp_lt_iff _ _).mp (show wcmp (charWeight none) (charWeight (some y)) = .lt from hab)
      cases c with
      | nil =>
        exfalso
        have h2 : charWeight (some y) < 1 :=
          (wcmp_lt_iff _ _).mp (show wcmp (charWeight (some y)) (charWeight none) = .lt from hbc)
        omega
      | cons z zs =>
        show wcmp (charWeight none) (charWeight (some z)) = .lt
        rcases Ordering.then_eq_lt.mp hbc with h2 | ⟨h2, _⟩
        · have h3 := (wcmp_lt_iff _ _).mp h2
          exact (wcmp_lt_iff _ _).mpr (by rw [charWeight_none]; omega)
        · have h3 := (wcmp_eq_iff _ _).mp h2
          exact (wcmp_lt_iff _ _).mpr (by rw [charWeight_none]; omega)
  | cons x xs ih =>
    intro b c hab hbc
    cases b with
    | nil =>
      have h1 : charWeight (some x) < 1 :=
        (wcmp_lt_iff _ _).mp (show wcmp (charWeight (some x)) (charWeight none) = .lt from hab)
      cases c with
      | nil => cases hbc
      | cons z zs =>
        have h2 : 1 < charWeight (some z) :=
          (wcmp_lt_iff _ _).mp (show wcmp (charWeight none) (charWeight (some z)) = .lt from hbc)
        show (wcmp (charWeight (some x)) (charWeight (some z))).then (cmpNonDigits xs zs) = .lt
        rw [then_of_ne_eq _ _ (by
          intro he
          have := (wcmp_eq_iff _ _).mp he
          omega)]
        exact (wcmp_lt_iff _ _).mpr (by omega)
    | cons y ys =>
      rcases Ordering.then_eq_lt.mp hab with h1 | ⟨h1, hr1⟩
      · have hw1 := (wcmp_lt_iff _ _).mp h1
        cases c with
        | nil =>
          have hw2 : charWeight (some y) < 1 :=
            (wcmp_lt_iff _ _).mp
              (show wcmp (charWeight (some y)) (charWeight none) = .lt from hbc)
          show wcmp (charWeight (some x)) (charWeight none) = .lt
          exact (wcmp_lt_iff _ _).mpr (by rw [charWeight_none] at *; omega)
        | cons z zs =>
          rcases Ordering.then_eq_lt.mp hbc with h2 | ⟨h2, _⟩
          · have hw2 := (wcmp_lt_iff _ _).mp h2
            show (wcmp (charWeight (some x)) (charWeight (some z))).then (cmpNonDigits xs zs)
                = .lt
            rw [then_of_ne_eq _ _ (by
              intro he
              have := (wcmp_eq_iff _ _).mp he
              omega)]
            exact (wcmp_lt_iff _ _).mpr (by omega)
          · have hw2 := (wcmp_eq_iff _ _).mp h2
            show (wcmp (charWeight (some x)) (charWeight (some z))).then (cmpNonDigits xs zs)
                = .lt
            rw [then_of_ne_eq _ _ (by
              intro he
              have := (wcmp_eq_iff _ _).mp he
              omega)]
            exact (wcmp_lt_iff _ _).mpr (by omega)
      · have hw1 := (wcmp_eq_iff _ _).mp h1
        cases c with
        | nil =>
          have hw2 : charWeight (some y) < 1 :=
            (wcmp_lt_iff _ _).mp
              (show wcmp (charWeight (some y)) (charWeight none) = .lt from hbc)
          show wcmp (charWeight (some x)) (charWeight none) = .lt
          exact (wcmp_lt_iff _ _).mpr (by rw [charWeight_none] at *; omega)
        | cons z zs =>
          rcases Ordering.then_eq_lt.mp hbc with h2 | ⟨h2, hr2⟩
          · have hw2 := (wcmp_lt_iff _ _).mp h2
            show (wcmp (charWeight (some x)) (charWeight (some z))).then (cmpNonDigits xs zs)
                = .lt
            rw [then_of_ne_eq _ _ (by
              intro he
              have := (wcmp_eq_iff _ _).mp he
              omega)]
            exact (wcmp_lt_iff _ _).mpr (by omega)
          · have hw2 := (wcmp_eq_iff _ _).mp h2
            show (wcmp (charWeight (some x)) (charWeight (some z))).then (cmpNonDigits xs zs)
                = .lt
            rw [show charWeight (some x) = charWeight (some z) from by omega, wcmp_refl, eq_then]
            exact ih ys zs hr1 hr2

theorem verC_succ (f : Nat) (as bs : List Char) :
    verC (f + 1) as bs
      = (cmpNonDigits (as.takeWhile (fun c => !c.isDigit)) (bs.takeWhile (fun c => !c.isDigit))).then
          ((wcmp (digitsVal ((as.dropWhile (fun c => !c.isDigit)).takeWhile Char.isDigit))
                 (digitsVal ((bs.dropWhile (fun c => !c.isDigit)).takeWhile Char.isDigit))).then
            (verC f ((as.dropWhile (fun c => !c.isDigit)).dropWhile Char.isDigit)
                    ((bs.dropWhile (fun c => !c.isDigit)).dropWhile Char.isDigit))) := rfl

theorem verC_nil (f : Nat) : verC f [] [] = .eq := by
  induction f with
  | zero => rfl
  | succ f ih =>
    rw [verC_succ]
    show (Ordering.eq).then ((wcmp (digitsVal []) (digitsVal [])).then (verC f [] [])) = .eq
    rw [eq_then, wcmp_refl, eq_then, ih]

theorem dropWhile_length_le (p : Char → Bool) (l : List Char) :
    (l.dropWhile p).length ≤ l.length := by
  induction l with
  | nil => exact Nat.le_refl 0
  | cons x xs ih =>
    rw [List.dropWhile_cons]
    by_cases h : p x = true
    · simp only [h, if_true]
      exact Nat.le_succ_of_le ih
    · simp only [h, if_false]
      exact Nat.le_refl _

theorem double_dropWhile_le (as : List Char) :
    ((as.dropWhile (fun c => !c.isDigit)).dropWhile Char.isDigit).length ≤ as.length :=
  Nat.le_trans (dropWhile_length_le _ _) (dropWhile_length_le _ _)

theorem double_dropWhile_lt (as : List Char) (h : as ≠ []) :
    ((as.dropWhile (fun c => !c.isDigit)).dropWhile Char.isDigit).length < as.length := by
  cases as with
  | nil => exact absurd rfl h
  | cons x xs =>
    by_cases hx : x.isDigit = true
    · rw [List.dropWhile_cons]
      simp only [hx, Bool.not_true, Bool.false_eq_true, if_false]
      rw [List.dropWhile_cons]
      simp only [hx, if_true]
      exact Nat.lt_succ_of_le (dropWhile_length_le _ _)
    · rw [List.dropWhile_cons]
      simp only [Bool.not_eq_true'] at hx
      simp only [hx, Bool.not_false, if_true]
      exact Nat.lt_succ_of_le (double_dropWhile_le xs)

theorem rest_bound (a b : List Char) (f : Nat) (hf : a.length + b.length ≤ f + 1)
    (hne : ¬(a = [] ∧ b = [])) :
    ((a.dropWhile (fun c => !c.isDigit)).dropWhile Char.isDigit).length
      + ((b.dropWhile (fun c => !c.isDigit)).dropWhile Char.isDigit).length ≤ f := by
  rcases not_and_or.mp hne with ha | hb
  · have h1 := double_dropWhile_lt a ha
    have h2 := double_dropWhile_le b
    omega
  · have h1 := double_dropWhile_le a
    have h2 := double_dropWhile_lt b hb
    omega

theorem rest_bound' (a b : List Char) (f : Nat) (hf : a.length + b.length ≤ f + 1) :
    ((a.dropWhile (fun c => !c.isDigit)).dropWhile Char.isDigit).length
      + ((b.dropWhile (fun c => !c.isDigit)).dropWhile Char.isDigit).length ≤ f := by
  by_cases hne : a = [] ∧ b = []
  · obtain ⟨rfl, rfl⟩ := hne
    simp
  · exact rest_bound a b f hf hne

theorem verC_fuel (f : Nat) : ∀ (g : Nat) (as bs : List Char),
    as.length + bs.length ≤ f → as.length + bs.length ≤ g →
    verC f as bs = verC g as bs := by
  induction f with
  | zero =>
    intro g as bs hf _
    have ha : as = [] := List.length_eq_zero.mp (by omega)
    have hb : bs = [] := List.length_eq_zero.mp (by omega)
    subst ha
    subst hb
    rw [verC_nil, verC_nil]
  | succ f ih =>
    intro g as bs hf hg
    cases g with
    | zero =>
      have ha : as = [] := List.length_eq_zero.mp (by omega)
      have hb : bs = [] := List.length_eq_zero.mp (by omega)
      subst ha
      subst hb
      rw [verC_nil, verC_nil]
    | succ g =>
      rw [verC_succ, verC_succ]
      exact congrArg _ (congrArg _ (ih g _ _ (rest_bound' as bs f hf) (rest_bound' as bs g hg)))

theorem verC_refl (f : Nat) : ∀ (a : List Char), verC f a a = .eq := by
  induction f with
  | zero => intro a; rfl
  | succ f ih =>
    intro a
    rw [verC_succ, cmpNonDigits_refl, eq_then, wcmp_refl, eq_then]
    exact ih _

theorem verC_swap (f : Nat) : ∀ (as bs : List Char), (verC f as bs).swap = verC f bs as := by
  induction f with
  | zero => intro as bs; rfl
  | succ f ih =>
    intro as bs
    rw [verC_succ, verC_succ, Ordering.swap_then, Ordering.swap_then, cmpNonDigits_swap,
      wcmp_swap, ih]

theorem verC_lt_trans (f : Nat) : ∀ (a b c : List Char),
    a.length + b.length ≤ f → b.length + c.length ≤ f → a.length + c.length ≤ f →
    verC f a b = .lt → verC f b c = .lt → verC f a c = .lt := by
  induction f with
  | zero => intro a b c _ _ _ hab _; exact nomatch hab
  | succ f ih =>
    intro a b c h1 h2 h3 hab hbc
    have hAB : ¬(a = [] ∧ b = []) := by
      rintro ⟨rfl, rfl⟩
      rw [verC_nil] at hab
      cases hab
    have hBC : ¬(b = [] ∧ c = []) := by
      rintro ⟨rfl, rfl⟩
      rw [verC_nil] at hbc
      cases hbc
    have hAC : ¬(a = [] ∧ c = []) := by
      rintro ⟨rfl, rfl⟩
      have hsw := verC_swap (f + 1) ([] : List Char) b
      rw [hab, hbc] at hsw
      exact absurd hsw (by decide)
    rw [verC_succ] at hab hbc
    rw [verC_succ]
    rcases Ordering.then_eq_lt.mp hab with hn1 | ⟨hn1, hd1⟩
    · rcases Ordering.then_eq_lt.mp hbc with hn2 | ⟨hn2, hd2⟩
      · exact Ordering.then_eq_lt.mpr (Or.inl (cmpNonDigits_lt_trans _ _ _ hn1 hn2))
      · refine Ordering.then_eq_lt.mpr (Or.inl ?_)
        rw [← cmpNonDigits_eq_congr_right _ _ hn2]
        exact hn1
    · rcases Ordering.then_eq_lt.mp hbc with hn2 | ⟨hn2, hd2⟩
      · refine Ordering.then_eq_lt.mpr (Or.inl ?_)
        rw [← cmpNonDigits_eq_congr _ _ hn1]
        exact hn2
      · refine Ordering.then_eq_lt.mpr (Or.inr ⟨?_, ?_⟩)
        · rw [← cmpNonDigits_eq_congr _ _ hn1]
          exact hn2
        · rcases Ordering.then_eq_lt.mp hd1 with hv1 | ⟨hv1, hr1⟩
          · rcases Ordering.then_eq_lt.mp hd2 with hv2 | ⟨hv2, hr2⟩
            · refine Ordering.then_eq_lt.mpr (Or.inl ((wcmp_lt_iff _ _).mpr ?_))
              have ha := (wcmp_lt_iff _ _).mp hv1
              have hb := (wcmp_lt_iff _ _).mp hv2
              omega
            · refine Ordering.then_eq_lt.mpr (Or.inl ((wcmp_lt_iff _ _).mpr ?_))
              have ha := (wcmp_lt_iff _ _).mp hv1
              have hb := (wcmp_eq_iff _ _).mp hv2
              omega
          · rcases Ordering.then_eq_lt.mp hd2 with hv2 | ⟨hv2, hr2⟩
            · refine Ordering.then_eq_lt.mpr (Or.inl ((wcmp_lt_iff _ _).mpr ?_))
              have ha := (wcmp_eq_iff _ _).mp hv1
              have hb := (wcmp_lt_iff _ _).mp hv2
              omega
            · refine Ordering.then_eq_lt.mpr (Or.inr ⟨(wcmp_eq_iff _ _).mpr ?_, ?_⟩)
              · have ha := (wcmp_eq_iff _ _).mp hv1
                have hb := (wcmp_eq_iff _ _).mp hv2
                omega
              · exact ih _ _ _ (rest_bound a b f h1 hAB) (rest_bound b c f h2 hBC)
                  (rest_bound a c f h3 hAC) hr1 hr2

theorem verC_eq_congr (f : Nat) : ∀ (a b c : List Char),
    a.length + b.length ≤ f → b.length + c.length ≤ f → a.length + c.length ≤ f →
    verC f a b = .eq → verC f b c = verC f a c := by
  induction f with
  | zero =>
    intro a b c h1 h2 _ _
    have ha : a = [] := List.length_eq_zero.mp (by omega)
    have hb : b = [] := List.length_eq_zero.mp (by omega)
    have hc : c = [] := List.length_eq_zero.mp (by omega)
    subst ha; subst hb; subst hc
    rfl
  | succ f ih =>
    intro a b c h1 h2 h3 hab
    rw [verC_succ] at hab
    obtain ⟨hn, hrest⟩ := Ordering.then_eq_eq.mp hab
    obtain ⟨hv, hr⟩ := Ordering.then_eq_eq.mp hrest
    rw [verC_succ, verC_succ]
    rw [cmpNonDigits_eq_congr _ _ hn]
    rw [← (wcmp_eq_iff _ _).mp hv]
    rw [ih _ _ _ (rest_bound' a b f h1) (rest_bound' b c f h2) (rest_bound' a c f h3) hr]

theorem verrevcmp_refl (a : List Char) : verrevcmp a a = .eq :=
  verC_refl _ a

theorem verrevcmp_swap (a b : List Char) : (verrevcmp a b).swap = verrevcmp b a := by
  unfold verrevcmp
  rw [verC_swap, Nat.add_comm]

theorem verrevcmp_lt_trans (a b c : List Char) (h1 : verrevcmp a b = .lt)
    (h2 : verrevcmp b c = .lt) : verrevcmp a c = .lt := by
  have hF1 : verC (a.length + b.length + c.length) a b = .lt := by
    rw [← verC_fuel (a.length + b.length) (a.length + b.length + c.length) a b
      (Nat.le_refl _) (by omega)]
    exact h1
  have hF2 : verC (a.length + b.length + c.length) b c = .lt := by
    rw [← verC_fuel (b.length + c.length) (a.length + b.length + c.length) b c
      (Nat.le_refl _) (by omega)]
    exact h2
  have hF3 := verC_lt_trans (a.length + b.length + c.length) a b c
    (by omega) (by omega) (by omega) hF1 hF2
  unfold verrevcmp
  rw [verC_fuel (a.length + c.length) (a.length + b.length + c.length) a c
    (Nat.le_refl _) (by omega)]
  exact hF3

theorem verrevcmp_eq_congr (a b c : List Char) (h : verrevcmp a b = .eq) :
    verrevcmp b c = verrevcmp a c := by
  have hF : verC (a.length + b.length + c.length) a b = .eq := by
    rw [← verC_fuel (a.length + b.length) (a.length + b.length + c.length) a b
      (Nat.le_refl _) (by omega)]
    exact h
  have hc := verC_eq_congr (a.length + b.length + c.length) a b c
    (by omega) (by omega) (by omega) hF
  unfold verrevcmp
  rw [verC_fuel (b.length + c.length) (a.length + b.length + c.length) b c
    (Nat.le_refl _) (by omega)]
  rw [verC_fuel (a.length + c.length) (a.length + b.length + c.length) a c
    (Nat.le_refl _) (by omega)]
  exact hc

theorem verrevcmp_eq_congr_right (b c : List Char) (h : verrevcmp b c = .eq) :
    ∀ a, verrevcmp a b = verrevcmp a c := by
  intro a
  have hcb : verrevcmp c b = .eq := by
    rw [← verrevcmp_swap, h]
    rfl
  rw [← verrevcmp_swap b a, ← verrevcmp_swap c a, verrevcmp_eq_congr c b a hcb]

theorem debCompare_unfold (a b : List Char) :
    debCompare a b
      = (wcmp (splitEpoch a).1 (splitEpoch b).1).then
          ((verrevcmp (splitRevision (splitEpoch a).2).1 (splitRevision (splitEpoch b).2).1).then
            (verrevcmp (splitRevision (splitEpoch a).2).2 (splitRevision (splitEpoch b).2).2)) :=
  rfl

theorem debCompare_refl (a : List Char) : debCompare a a = .eq := by
  rw [debCompare_unfold, wcmp_refl, eq_then, verrevcmp_refl, eq_then, verrevcmp_refl]

theorem debCompare_swap (a b : List Char) : (debCompare a b).swap = debCompare b a := by
  rw [debCompare_unfold, debCompare_unfold, Ordering.swap_then, Ordering.swap_then,
    wcmp_swap, verrevcmp_swap, verrevcmp_swap]

theorem debCompare_lt_trans (a b c : List Char) (h1 : debCompare a b = .lt)
    (h2 : debCompare b c = .lt) : debCompare a c = .lt := by
  rw [debCompare_unfold] at h1 h2
  rw [debCompare_unfold]
  rcases Ordering.then_eq_lt.mp h1 with he1 | ⟨he1, hu1⟩
  · rcases Ordering.then_eq_lt.mp h2 with he2 | ⟨he2, hu2⟩
    · refine Ordering.then_eq_lt.mpr (Or.inl ((wcmp_lt_iff _ _).mpr ?_))
      have ha := (wcmp_lt_iff _ _).mp he1
      have hb := (wcmp_lt_iff _ _).mp he2
      omega
    · refine Ordering.then_eq_lt.mpr (Or.inl ((wcmp_lt_iff _ _).mpr ?_))
      have ha := (wcmp_lt_iff _ _).mp he1
      have hb := (wcmp_eq_iff _ _).mp he2
      omega
  · rcases Ordering.then_eq_lt.mp h2 with he2 | ⟨he2, hu2⟩
    · refine Ordering.then_eq_lt.mpr (Or.inl ((wcmp_lt_iff _ _).mpr ?_))
      have ha := (wcmp_eq_iff _ _).mp he1
      have hb := (wcmp_lt_iff _ _).mp he2
      omega
    · refine Ordering.then_eq_lt.mpr (Or.inr ⟨(wcmp_eq_iff _ _).mpr ?_, ?_⟩)
      · have ha := (wcmp_eq_iff _ _).mp he1
        have hb := (wcmp_eq_iff _ _).mp he2
        omega
      · rcases Ordering.then_eq_lt.mp hu1 with hq1 | ⟨hq1, hv1⟩
        · rcases Ordering.then_eq_lt.mp hu2 with hq2 | ⟨hq2, hv2⟩
          · exact Ordering.then_eq_lt.mpr (Or.inl (verrevcmp_lt_trans _ _ _ hq1 hq2))
          · refine Ordering.then_eq_lt.mpr (Or.inl ?_)
            rw [← verrevcmp_eq_congr_right _ _ hq2]
            exact hq1
        · rcases Ordering.then_eq_lt.mp hu2 with hq2 | ⟨hq2, hv2⟩
          · refine Ordering.then_eq_lt.mpr (Or.inl ?_)
            rw [← verrevcmp_eq_congr _ _ _ hq1]
            exact hq2
          · refine Ordering.then_eq_lt.mpr (Or.inr ⟨?_, ?_⟩)
            · rw [← verrevcmp_eq_congr _ _ _ hq1]
              exact hq2
            · exact verrevcmp_lt_trans _ _ _ hv1 hv2

theorem debCompare_eq_congr (a b c : List Char) (h : debCompare a b = .eq) :
    debCompare b c = debCompare a c := by
  rw [debCompare_unfold] at h
  obtain ⟨he, hrest⟩ := Ordering.then_eq_eq.mp h
  obtain ⟨hu, hr⟩ := Ordering.then_eq_eq.mp hrest
  rw [debCompare_unfold, debCompare_unfold]
  rw [← (wcmp_eq_iff _ _).mp he]
  rw [verrevcmp_eq_congr _ _ _ hu]
  rw [verrevcmp_eq_congr _ _ _ hr]

/-- C8: the version comparator is a lawful total ordering of version
strings split as epoch, upstream and revision with the epoch
defaulting to 0: it is reflexive, antisymmetric under swap (hence any
two versions are comparable with consistent verdicts), its strict part
is transitive, and comparator-equal versions are interchangeable on
either side (comparator equality is an equivalence, for instance
"0:1.0" and "1.0" compare equal without being the same string); the
epoch dominates, so compare of "1:2.0-1" against "2.0-1" is GREATER,
and a tilde sorts before the empty string, so compare of "1.0~rc1"
against "1.0" is LESS. -/
theorem C8_version_total_order :
    (∀ a : List Char, debCompare a a = .eq)
    ∧ (∀ a b : List Char, (debCompare a b).swap = debCompare b a)
    ∧ (∀ a b c : List Char, debCompare a b = .lt → debCompare b c = .lt →
        debCompare a c = .lt)
    ∧ (∀ a b c : List Char, debCompare a b = .eq → debCompare b c = debCompare a c)
    ∧ debCompare ("1:2.0-1".toList) ("2.0-1".toList) = .gt
    ∧ debCompare ("1.0~rc1".toList) ("1.0".toList) = .lt :=
  ⟨debCompare_refl, debCompare_swap, debCompare_lt_trans, debCompare_eq_congr,
    by decide, by decide⟩

/-- C8 witness: strict transitivity applied to the concrete chain
"1.0" before "2.0" before "3.0". -/
theorem C8_witness : debCompare ("1.0".toList) ("3.0".toList) = .lt :=
  C8_version_total_order.2.2.1 ("1.0".toList) ("2.0".toList) ("3.0".toList)
    (by decide) (by decide)
